import Mathlib

/-!
Verification development for the AnimeFest 2016 schedule-sync tool
(afest_sched.py).  The Python source is shallowly embedded below: every
definition mirrors one function or constant of the source file, with the
source location noted in its doc comment.  Machine-level concerns do not
arise (all data are strings and small naturals); Python datetime values
produced by strptime with format m/d/Y are modeled by their proleptic
Gregorian day ordinal (rata die), since the program only ever compares
them and subtracts them in whole days.  Python dicts are modeled as
insertion-ordered association lists; the set of groups is identical to
the CPython dict, only the (unspecified) iteration order differs.
Unicode NFC normalization, applied by unicodedata.normalize at diff
time, is modeled as an abstract parameter nfc of the differ.
-/

namespace AFestSched

/-- The whitespace set of Python str.strip: space, tab, newline,
carriage return, vertical tab, form feed. -/
def isPySpace (c : Char) : Bool :=
  c == ' ' || c == '\t' || c == '\n' || c == '\r' || c == '\x0b' || c == '\x0c'

/-- Python str.strip on a character list: drop leading and trailing whitespace. -/
def pyStripL (cs : List Char) : List Char :=
  ((cs.dropWhile isPySpace).reverse.dropWhile isPySpace).reverse

/-- Python str.strip on a string. -/
def pyStrip (s : String) : String := String.mk (pyStripL s.data)

/-- Python str.replace (and re.sub with a literal pattern): replace every
non-overlapping occurrence of pat, scanning left to right.  Fuel-indexed so the
recursion is structural; fuel equal to the list length suffices because every
step consumes at least one character. -/
def replaceGo (pat rep : List Char) : Nat → List Char → List Char
  | 0, cs => cs
  | _ + 1, [] => []
  | n + 1, c :: cs =>
    if pat ≠ [] ∧ pat.isPrefixOf (c :: cs) then
      rep ++ replaceGo pat rep n (cs.drop (pat.length - 1))
    else
      c :: replaceGo pat rep n cs

/-- Python str.replace on character lists. -/
def replaceL (pat rep cs : List Char) : List Char := replaceGo pat rep cs.length cs

/-- Python s.replace(pat, rep) on strings. -/
def replaceS (s pat rep : String) : String := String.mk (replaceL pat.data rep.data s.data)

/-- afest_sched.py line 36: AFEST_DESC_SUBS, the fixed ordered substitution
table applied to source-feed descriptions.  The pairs, in source order:
right curly apostrophe, em dash, left curly double quote, right curly double
quote, en dash, non-breaking hyphen (U+2011), trademark sign, Romanian
s-with-comma, left curly apostrophe, horizontal ellipsis, no-break space,
vertical tab. -/
def AFEST_DESC_SUBS : List (String × String) :=
  [("’", "'"), ("—", "-"), ("“", "\""), ("”", "\""),
   ("–", "-"), ("‑", "-"), ("™", "(TM)"), ("ș", "s"),
   ("‘", "'"), ("…", "..."), (" ", " "), ("\x0b", " ")]

/-- afest_sched.py lines 75-76: the for-loop applying each substitution of
AFEST_DESC_SUBS, in order, via str.replace. -/
def applySubs (s : String) : String :=
  AFEST_DESC_SUBS.foldl (fun acc p => replaceS acc p.1 p.2) s

/-- Gregorian leap-year predicate, as used by Python datetime. -/
def isLeapYear (y : Nat) : Bool := y % 4 == 0 && (y % 100 != 0 || y % 400 == 0)

/-- Number of days in month m of year y (m between 1 and 12). -/
def daysInMonth (y m : Nat) : Nat :=
  if m = 2 then (if isLeapYear y then 29 else 28)
  else if m = 4 ∨ m = 6 ∨ m = 9 ∨ m = 11 then 30
  else 31

/-- Days of year y that precede the first day of month m. -/
def daysBeforeMonth (y m : Nat) : Nat :=
  let f : Nat := if isLeapYear y then 1 else 0
  match m with
  | 1 => 0 | 2 => 31 | 3 => 59 + f | 4 => 90 + f | 5 => 120 + f | 6 => 151 + f
  | 7 => 181 + f | 8 => 212 + f | 9 => 243 + f | 10 => 273 + f | 11 => 304 + f
  | _ => 334 + f

/-- Proleptic Gregorian day ordinal (rata die) of year y, month m, day d:
day 1 is January 1 of year 1.  Python datetime values parsed with format
m/d/Y always sit at midnight, so their ordering and whole-day differences
are exactly the ordering and differences of this ordinal. -/
def rataDie (y m d : Nat) : Nat :=
  365 * (y - 1) + (y - 1) / 4 - (y - 1) / 100 + (y - 1) / 400 + daysBeforeMonth y m + d

/-- Split a character list at every slash (the date-format separator). -/
def splitSlash : List Char → List (List Char)
  | [] => [[]]
  | c :: cs =>
    let rest := splitSlash cs
    if c = '/' then [] :: rest
    else match rest with
      | g :: gs => (c :: g) :: gs
      | [] => [[c]]

/-- Decimal value of a digit list. -/
def digitsVal (cs : List Char) : Nat :=
  cs.foldl (fun a c => a * 10 + (c.toNat - 48)) 0

/-- Nonempty and all decimal digits. -/
def isDigitsL (cs : List Char) : Bool := !cs.isEmpty && cs.all (·.isDigit)

/-- Model of datetime.strptime(s, ATTENDIFY_DATE_FORMAT) from afest_sched.py
(format string m/d/Y, lines 27, 96-97, 158-159): three slash-separated decimal
fields, month and day of one or two digits, year of up to four digits, that
denote a valid calendar date.  Returns the rata-die ordinal of the parsed date,
or none when strptime would raise ValueError. -/
def parseDate (s : String) : Option Nat :=
  match splitSlash s.data with
  | [ms, ds, ys] =>
    if isDigitsL ms && isDigitsL ds && isDigitsL ys
        && ms.length ≤ 2 && ds.length ≤ 2 && ys.length ≤ 4 then
      let m := digitsVal ms
      let d := digitsVal ds
      let y := digitsVal ys
      if 1 ≤ m && m ≤ 12 && 1 ≤ d && d ≤ daysInMonth y m && 1 ≤ y then
        some (rataDie y m d)
      else none
    else none
  | _ => none

/-- afest_sched.py lines 39-80: the AFestEvent model object.  Fields are the
attributes assigned by the two loaders; afest_id is None (here none) exactly
when load_from_attendify finds no embedded tag. -/
structure AFestEvent where
  title : String
  date : String
  start_time : String
  end_time : String
  desc : String
  location : String
  track : String
  attendify_id : String
  afest_id : Option String
deriving DecidableEq

/-- afest_sched.py lines 82-98: AFestEvent.is_match.  Returns none when the
Python code would raise ValueError from strptime (only reachable in the
different-dates branch), otherwise some of the boolean the method returns. -/
def is_match (self other : AFestEvent) : Option Bool :=
  if self.title ≠ other.title ∨ self.location ≠ other.location then
    some false
  else if self.date = other.date then
    some (self.start_time == other.start_time
      && (self.end_time == other.end_time || self.end_time == "23:59"))
  else
    match parseDate self.date, parseDate other.date with
    | some thisD, some otherD =>
      some (decide ((thisD : Int) - (otherD : Int) = 1)
        && self.start_time == "00:00" && self.end_time == other.end_time)
    | none, _ => none
    | some _, none => none

/-- The fatal-error exits of the program (ArgumentParser.exit calls and the
ValueError that strptime raises on an unparseable date). -/
inductive SchedError where
  | splitEventsSameDay (date title1 title2 : String)
  | invalidDate (s : String)
  | excessiveIdUse (count : Nat) (id : Option String)
deriving DecidableEq

/-- afest_sched.py lines 168-178: the result record built by merge_events,
with s the startEvent and t the endEvent: every field is copied from the
startEvent except end_time, which comes from the endEvent. -/
def mkMerged (s t : AFestEvent) : AFestEvent :=
  { title := s.title, date := s.date, start_time := s.start_time,
    end_time := t.end_time, desc := s.desc, location := s.location,
    track := s.track, attendify_id := s.attendify_id, afest_id := s.afest_id }

/-- afest_sched.py lines 154-178: merge_events.  Exits when the two date
strings are equal; otherwise parses both dates (first event first, as the
Python exception order), picks the chronologically earlier event as
startEvent via the datetime comparison, and builds the merged record. -/
def merge_events (event1 event2 : AFestEvent) : Except SchedError AFestEvent :=
  if event1.date = event2.date then
    .error (.splitEventsSameDay event1.date event1.title event2.title)
  else
    match parseDate event1.date, parseDate event2.date with
    | some date1, some date2 =>
      .ok (if date1 < date2 then mkMerged event1 event2 else mkMerged event2 event1)
    | none, _ => .error (.invalidDate event1.date)
    | some _, none => .error (.invalidDate event2.date)

/-- The nine pattern characters of the tag regex head, lowercased. -/
def tagHead : List Char := "[afestid:".data

/-- Does the lowered text at offset p of cs begin with the literal tag head?
This realizes the IGNORECASE matching of the literal characters of the
pattern from afest_sched.py line 54 (all of them ASCII, so ASCII lowering
is exact). -/
def tagHeadAt (cs : List Char) (p : Nat) : Bool :=
  decide ((((cs.drop p).take 9).map Char.toLower) = tagHead)

/-- Can the regex group capture start at offset p when the match ends at
offset nEff (exclusive)?  Requires the tag head at p, a nonempty identifier
region between the head and the closing bracket at nEff - 1, and no newline
inside the identifier (the dot of the pattern does not match newline). -/
def tagOkAt (cs : List Char) (nEff p : Nat) : Bool :=
  tagHeadAt cs p && p + 11 ≤ nEff
    && ((cs.drop (p + 9)).take (nEff - 1 - (p + 9))).all (fun c => c ≠ '\n')

/-- Largest offset p0, counting down from the given start, at which the tag
group can begin: the leading greedy dot-star of the pattern makes the regex
engine pick the rightmost viable group start. -/
def findTagFrom (cs : List Char) (nEff : Nat) : Nat → Option Nat
  | 0 => if tagOkAt cs nEff 0 then some 0 else none
  | p + 1 => if tagOkAt cs nEff (p + 1) then some (p + 1) else findTagFrom cs nEff p

/-- Try to match the tag with the pattern anchor at offset nEff: the character
at nEff - 1 must be the closing bracket and some viable group start must
exist at or below nEff - 11. -/
def tryTagEnd (cs : List Char) (nEff : Nat) : Option Nat :=
  if 11 ≤ nEff ∧ cs.get? (nEff - 1) = some ']' then
    findTagFrom cs nEff (nEff - 11)
  else none

/-- Model of regex.search with the pattern of afest_sched.py line 54.
The dollar anchor of Python re matches at the very end of the string, or just
before one trailing newline; the two cases are mutually exclusive (the last
character cannot be both a bracket and a newline).  Returns the group start
offset and the anchor offset. -/
def searchTag (cs : List Char) : Option (Nat × Nat) :=
  match tryTagEnd cs cs.length with
  | some p => some (p, cs.length)
  | none =>
    if cs.getLast? = some '\n' then
      match tryTagEnd cs (cs.length - 1) with
      | some p => some (p, cs.length - 1)
      | none => none
    else none

/-- afest_sched.py lines 54-64: the embedded-identifier extraction of
load_from_attendify.  On a match, group 2 (the identifier) becomes afest_id,
and the stored description is the original with len(group 1) characters cut
from its absolute end (the Python slice desc[:-len(full_id_str)]) and then
stripped.  Without a match the description is kept and afest_id is none. -/
def extractAfestTag (s : String) : String × Option String :=
  let cs := s.data
  match searchTag cs with
  | some (p, nEff) =>
    let idChars := (cs.drop (p + 9)).take (nEff - 1 - (p + 9))
    let keep := cs.length - (nEff - p)
    (String.mk (pyStripL (cs.take keep)), some (String.mk idChars))
  | none => (s, none)

/-- One spreadsheet row of the distribution (Attendify) feed, already read by
the excluded I/O layer: the eight cell values of afest_sched.py lines 43-52,
in column order.  The track cell may be empty in the sheet (Python None),
hence the option. -/
structure AttendifyRow where
  title : String
  date : String
  start_time : String
  end_time : String
  desc : String
  location : String
  track : Option String
  attendify_id : String

/-- afest_sched.py lines 42-64: AFestEvent.load_from_attendify.  Strips every
cell, replaces the literal markup sequences in the description, then runs the
embedded-identifier extraction. -/
def load_from_attendify (row : AttendifyRow) : AFestEvent :=
  let d0 := pyStrip row.desc
  let d1 := replaceS d0 "&nbsp;" " "
  let d2 := replaceS d1 "<br>" ""
  let ex := extractAfestTag d2
  { title := pyStrip row.title, date := pyStrip row.date,
    start_time := pyStrip row.start_time, end_time := pyStrip row.end_time,
    desc := ex.1, location := pyStrip row.location,
    track := pyStrip (row.track.getD ""), attendify_id := pyStrip row.attendify_id,
    afest_id := ex.2 }

/-- One CSV row of the source (AFest) feed, keyed by the header names used at
afest_sched.py lines 67-80. -/
structure AfestRow where
  session_title : String
  date : String
  start_time : String
  end_time : String
  description : String
  location : String
  track_title : String
  uid : String
  id_schedule_block : String

/-- afest_sched.py lines 66-80: AFestEvent.load_from_afest.  Strips every
field, canonicalizes a midnight end time to one minute before midnight, and
pushes the description through the substitution table. -/
def load_from_afest (row : AfestRow) : AFestEvent :=
  let et := pyStrip row.end_time
  { title := pyStrip row.session_title, date := pyStrip row.date,
    start_time := pyStrip row.start_time,
    end_time := if et = "00:00" then "23:59" else et,
    desc := applySubs (pyStrip row.description),
    location := pyStrip row.location, track := pyStrip row.track_title,
    attendify_id := pyStrip row.uid,
    afest_id := some (pyStrip row.id_schedule_block) }

/-- afest_sched.py lines 186-192: one step of the grouping loop of
merge_split_events.  The Python dict keyed by afest_id is modeled as an
association list; a record is appended to the entry carrying its key, or a
fresh singleton entry is added. -/
def groupInsert (acc : List (Option String × List AFestEvent)) (e : AFestEvent) :
    List (Option String × List AFestEvent) :=
  if acc.any (fun kv => kv.1 = e.afest_id) then
    acc.map (fun kv => if kv.1 = e.afest_id then (kv.1, kv.2 ++ [e]) else kv)
  else acc ++ [(e.afest_id, [e])]

/-- afest_sched.py lines 196-202: the per-group body of the result loop of
merge_split_events.  A single record passes through, a pair is merged, and
any other group size exits with the excessive-identifier-use error carrying
the count and the identifier. -/
def processGroup : Option String × List AFestEvent → Except SchedError (List AFestEvent)
  | (_, [e]) => .ok [e]
  | (_, [e1, e2]) => (merge_events e1 e2).map (fun m => [m])
  | (id, l) => .error (.excessiveIdUse l.length id)

/-- afest_sched.py lines 194-204: the result loop of merge_split_events over
the grouped records, accumulating in iteration order and aborting at the
first fatal group. -/
def processGroups : List (Option String × List AFestEvent) → Except SchedError (List AFestEvent)
  | [] => .ok []
  | g :: rest =>
    match processGroup g with
    | .error err => .error err
    | .ok xs =>
      match processGroups rest with
      | .error err => .error err
      | .ok ys => .ok (xs ++ ys)

/-- afest_sched.py lines 181-204: merge_split_events. -/
def merge_split_events (events : List AFestEvent) : Except SchedError (List AFestEvent) :=
  processGroups (events.foldl groupInsert [])

/-- Lexicographic code-point comparison of character lists, the order Python
2 uses on unicode strings: a strict prefix sorts below its extensions. -/
def charListLt : List Char → List Char → Bool
  | [], [] => false
  | [], _ :: _ => true
  | _ :: _, [] => false
  | a :: as, b :: bs =>
    if a < b then true
    else if b < a then false
    else charListLt as bs

/-- Python 2 comparison of the afest_id values in diff_event_lists (lines
274 and 278): None sorts strictly below every string, and strings compare
lexicographically by code point. -/
def keyLt : Option String → Option String → Bool
  | none, none => false
  | none, some _ => true
  | some _, none => false
  | some a, some b => charListLt a.data b.data

/-- afest_sched.py lines 283-299: the per-field change set built for a pair
of records with equal identifiers, in source order; each entry is the field
name with the old and the new value.  The descriptions on both sides pass
through unicodedata.normalize NFC (modeled by the parameter nfc) immediately
before the comparison. -/
def changesBetween (nfc : String → String) (l r : AFestEvent) :
    List (String × String × String) :=
  (if l.date ≠ r.date then [("date", l.date, r.date)] else [])
  ++ (if l.start_time ≠ r.start_time then [("start_time", l.start_time, r.start_time)] else [])
  ++ (if l.end_time ≠ r.end_time then [("end_time", l.end_time, r.end_time)] else [])
  ++ (if l.title ≠ r.title then [("title", l.title, r.title)] else [])
  ++ (if l.location ≠ r.location then [("location", l.location, r.location)] else [])
  ++ (if nfc l.desc ≠ nfc r.desc then [("desc", nfc l.desc, nfc r.desc)] else [])
  ++ (if l.track ≠ r.track then [("track", l.track, r.track)] else [])

/-- The four-bucket result dictionary of diff_event_lists (line 266).  The
changed dict is modeled as an association list from identifier to change
set (its keys are unique under the documented sorted-unique precondition). -/
structure DiffResult where
  added : List AFestEvent
  deleted : List AFestEvent
  changed : List (Option String × List (String × String × String))
  matched : List AFestEvent
deriving DecidableEq

/-- afest_sched.py lines 259-321: diff_event_lists, the sorted merge join.
The main loop consumes the smaller key as deleted or added, and on equal
keys files the pair as changed or matched; the two tail loops flush the
leftovers. -/
def diffEvents (nfc : String → String) : List AFestEvent → List AFestEvent → DiffResult
  | [], rs => { added := rs, deleted := [], changed := [], matched := [] }
  | l :: ls, [] => { added := [], deleted := l :: ls, changed := [], matched := [] }
  | l :: ls, r :: rs =>
    if keyLt l.afest_id r.afest_id then
      let d := diffEvents nfc ls (r :: rs)
      { d with deleted := l :: d.deleted }
    else if keyLt r.afest_id l.afest_id then
      let d := diffEvents nfc (l :: ls) rs
      { d with added := r :: d.added }
    else
      let cs := changesBetween nfc l r
      let d := diffEvents nfc ls rs
      if cs = [] then { d with matched := l :: d.matched }
      else { d with changed := (l.afest_id, cs) :: d.changed }
termination_by ls rs => ls.length + rs.length

/-- Python truthiness of the afest_id attribute, as tested at
afest_sched.py line 218: None and the empty string are falsy. -/
def pyTruthy : Option String → Bool
  | none => false
  | some s => s ≠ ""

/-- afest_sched.py lines 222-229: the exact-match loop of add_ids_to_attendify
for one distribution record, scanning the source records in order.  Returns
none when is_match raises, some none when no record matches, and the first
matching record otherwise. -/
def findExact (at_event : AFestEvent) : List AFestEvent → Option (Option AFestEvent)
  | [] => some none
  | af :: rest =>
    match is_match at_event af with
    | none => none
    | some true => some (some af)
    | some false => findExact at_event rest

/-- The observable effect of processing one distribution record in the
backfill workflow: a write request to the record store (attendify_id of the
row to tag, discovered identifier) plus which counter it bumps. -/
inductive StepAction where
  | skipped
  | exactWrite (attendifyId : String) (afestId : Option String)
  | titleWrite (attendifyId : String) (afestId : Option String)
  | noWrite
deriving DecidableEq

/-- afest_sched.py lines 217-240: the per-record body of the matching loop of
add_ids_to_attendify.  Records already carrying a truthy afest_id are
skipped; an exact match wins first; otherwise the title-only fallback fires
exactly when the filtered identifier list has length one.  Returns none when
is_match raises. -/
def backfillStep (afest_events : List AFestEvent) (at_event : AFestEvent) :
    Option StepAction :=
  if pyTruthy at_event.afest_id then some .skipped
  else
    match findExact at_event afest_events with
    | none => none
    | some (some af) => some (.exactWrite at_event.attendify_id af.afest_id)
    | some none =>
      match (afest_events.filter (fun af => at_event.title = af.title)).map
          (fun af => af.afest_id) with
      | [i] => some (.titleWrite at_event.attendify_id i)
      | _ => some .noWrite

/-- The result data of the backfill workflow: the write requests issued to
the record store, and the two match counters printed at line 244. -/
structure BackfillState where
  writes : List (String × Option String)
  exactMatches : Nat
  titleMatches : Nat
deriving DecidableEq

/-- Fold one step action into the workflow state. -/
def applyStep (s : BackfillState) : StepAction → BackfillState
  | .skipped => s
  | .exactWrite a i => { s with writes := s.writes ++ [(a, i)], exactMatches := s.exactMatches + 1 }
  | .titleWrite a i => { s with writes := s.writes ++ [(a, i)], titleMatches := s.titleMatches + 1 }
  | .noWrite => s

/-- afest_sched.py lines 215-240: the whole matching loop of
add_ids_to_attendify over the distribution records, threading the counters
and the write requests; none when some step raises. -/
def backfillRun (afest_events : List AFestEvent) :
    List AFestEvent → BackfillState → Option BackfillState
  | [], s => some s
  | at_event :: rest, s =>
    match backfillStep afest_events at_event with
    | none => none
    | some act => backfillRun afest_events rest (applyStep s act)

/-! Concrete sample records used by the witness theorems. -/

/-- Sample distribution record: first half of a midnight-split event,
truncated at the end of the day. -/
def evFirstHalf : AFestEvent :=
  { title := "Late Night Karaoke", date := "08/05/2016", start_time := "22:00",
    end_time := "23:59", desc := "sing", location := "Main Hall", track := "",
    attendify_id := "at1", afest_id := none }

/-- Sample source record for the same event, ending after midnight. -/
def evSourceLate : AFestEvent :=
  { title := "Late Night Karaoke", date := "08/05/2016", start_time := "22:00",
    end_time := "01:00", desc := "sing", location := "Main Hall", track := "",
    attendify_id := "u1", afest_id := some "9" }

/-- Sample distribution record: second half of a midnight-split event. -/
def evSecondHalf : AFestEvent :=
  { title := "Late Night Karaoke", date := "08/06/2016", start_time := "00:00",
    end_time := "01:00", desc := "sing", location := "Main Hall", track := "",
    attendify_id := "at2", afest_id := none }

/-- Sample pair member for the merge theorems, dated August 5. -/
def evMergeA : AFestEvent :=
  { title := "Late Night Karaoke", date := "08/05/2016", start_time := "22:00",
    end_time := "23:59", desc := "sing", location := "Main Hall", track := "",
    attendify_id := "at1", afest_id := some "9" }

/-- Sample pair member for the merge theorems, dated August 6. -/
def evMergeB : AFestEvent :=
  { title := "Late Night Karaoke", date := "08/06/2016", start_time := "00:00",
    end_time := "01:00", desc := "sing", location := "Main Hall", track := "",
    attendify_id := "at2", afest_id := some "9" }

/-- Sample record three days after evMergeA, for the no-adjacency-check
theorem. -/
def evFarApart : AFestEvent :=
  { title := "Late Night Karaoke", date := "08/08/2016", start_time := "10:00",
    end_time := "11:00", desc := "sing", location := "Main Hall", track := "",
    attendify_id := "at3", afest_id := some "9" }

/-- Boolean success test for an Except value. -/
def isOkB {ε α : Type _} : Except ε α → Bool
  | .ok _ => true
  | .error _ => false

/-- Sample unmatched distribution record (no embedded identifier). -/
def evUnmatched3 : AFestEvent :=
  { title := "Cosplay Repair", date := "08/07/2016", start_time := "09:00",
    end_time := "10:00", desc := "fix", location := "Lobby", track := "",
    attendify_id := "at9", afest_id := none }

/-- Sample distribution row whose description ends with an embedded
identifier tag, from the example of the specification. -/
def rowTagGood : AttendifyRow :=
  { title := "Fun Panel", date := "08/05/2016", start_time := "10:00",
    end_time := "11:00", desc := "...fun! [AFESTID:7]", location := "Hall",
    track := some "Main", attendify_id := "at7" }

/-- Sample distribution row whose description carries the tag followed by a
newline and a line-break marker: after markup stripping the description ends
with a newline, not with the tag. -/
def rowTagNewline : AttendifyRow :=
  { title := "Fun Panel", date := "08/05/2016", start_time := "10:00",
    end_time := "11:00", desc := "x [afestid:7]\n<br>", location := "Hall",
    track := some "Main", attendify_id := "at8" }

/-- Sample unmatched distribution record for the title-fallback witness. -/
def atTitleOnly : AFestEvent :=
  { title := "Quiz Hour", date := "08/05/2016", start_time := "10:00",
    end_time := "11:00", desc := "q", location := "Room A", track := "",
    attendify_id := "at5", afest_id := none }

/-- Sample source record sharing only the title with atTitleOnly. -/
def afTitleOnly : AFestEvent :=
  { title := "Quiz Hour", date := "08/05/2016", start_time := "10:00",
    end_time := "11:00", desc := "q", location := "Room B", track := "",
    attendify_id := "u5", afest_id := some "5" }

/-- Exactly one of three propositions holds. -/
def ExactlyOne (p q r : Prop) : Prop :=
  (p ∨ q ∨ r) ∧ ¬(p ∧ q) ∧ ¬(p ∧ r) ∧ ¬(q ∧ r)

/-- Sample record with identifier 1 for the differ witness. -/
def evK1 : AFestEvent :=
  { title := "Alpha", date := "08/05/2016", start_time := "09:00",
    end_time := "10:00", desc := "a", location := "L1", track := "",
    attendify_id := "x1", afest_id := some "1" }

/-- Sample record with identifier 2 for the differ witness. -/
def evK2 : AFestEvent :=
  { title := "Beta", date := "08/05/2016", start_time := "11:00",
    end_time := "12:00", desc := "b", location := "L2", track := "",
    attendify_id := "x2", afest_id := some "2" }

/-- Sample record with identifier 3 for the differ witness. -/
def evK3 : AFestEvent :=
  { title := "Gamma", date := "08/06/2016", start_time := "09:00",
    end_time := "10:00", desc := "c", location := "L3", track := "",
    attendify_id := "x3", afest_id := some "3" }

/-! Helper lemmas about merge_events. -/

/-- When both dates parse to distinct day ordinals, merge_events succeeds and
returns the record built from the chronologically earlier event, taking only
the end time from the later one. -/
theorem merge_events_eq_ok (e1 e2 : AFestEvent) (a b : Nat)
    (h1 : parseDate e1.date = some a) (h2 : parseDate e2.date = some b)
    (hab : a ≠ b) :
    merge_events e1 e2 = .ok (if a < b then mkMerged e1 e2 else mkMerged e2 e1) := by
  have hne : e1.date ≠ e2.date := by
    intro h
    rw [h, h2] at h1
    exact hab (Option.some.inj h1).symm
  unfold merge_events
  rw [if_neg hne, h1, h2]

/-- Claim C2: the same-day case of the matcher.  For every candidate
(distribution-origin) and reference (source-origin) record, a title or
location difference makes is_match false; with equal titles, locations and
date strings, is_match returns true exactly when the start times are equal
and either the end times are equal or the candidate ends at 23:59. -/
theorem claim_C2 (cand ref : AFestEvent) :
    ((cand.title ≠ ref.title ∨ cand.location ≠ ref.location) →
        is_match cand ref = some false) ∧
    (cand.title = ref.title → cand.location = ref.location →
      cand.date = ref.date →
      (is_match cand ref = some true ↔
        (cand.start_time = ref.start_time ∧
          (cand.end_time = ref.end_time ∨ cand.end_time = "23:59")))) := by
  constructor
  · intro h
    unfold is_match
    rw [if_pos h]
  · intro ht hl hd
    unfold is_match
    rw [if_neg (by simp [ht, hl]), if_pos hd]
    simp [Bool.and_eq_true, Bool.or_eq_true, beq_iff_eq]

/-- Claim C2 witness: a concrete same-day pair where the candidate end time
is the end-of-day sentinel and the reference ends later matches. -/
theorem claim_C2_witness :
    is_match evFirstHalf evSourceLate = some true ∧
    is_match evFirstHalf
      { evSourceLate with location := "Video Room" } = some false := by
  constructor
  · exact ((claim_C2 evFirstHalf evSourceLate).2 rfl rfl rfl).mpr
      ⟨rfl, Or.inr rfl⟩
  · exact (claim_C2 evFirstHalf { evSourceLate with location := "Video Room" }).1
      (Or.inr (by decide))

/-- Claim C3: the cross-day case of the matcher.  With equal titles and
locations but unequal date strings (both parseable), is_match returns true
exactly when the candidate date is one calendar day after the reference
date, the candidate starts at midnight, and the end times agree; every
other date relationship yields no match. -/
theorem claim_C3 (cand ref : AFestEvent) (a b : Nat)
    (ht : cand.title = ref.title) (hl : cand.location = ref.location)
    (hd : cand.date ≠ ref.date)
    (ha : parseDate cand.date = some a) (hb : parseDate ref.date = some b) :
    is_match cand ref = some true ↔
      ((a : Int) - (b : Int) = 1 ∧ cand.start_time = "00:00" ∧
        cand.end_time = ref.end_time) := by
  unfold is_match
  rw [if_neg (by simp [ht, hl]), if_neg hd, ha, hb]
  simp [Bool.and_eq_true, beq_iff_eq, and_assoc]

/-- Claim C3 witness: the concrete second half of a midnight-split event
matches its source record across the day boundary. -/
theorem claim_C3_witness :
    is_match evSecondHalf evSourceLate = some true := by
  exact (claim_C3 evSecondHalf evSourceLate
      (rataDie 2016 8 6) (rataDie 2016 8 5)
      rfl rfl (by decide) rfl rfl).mpr ⟨by decide, rfl, rfl⟩

/-- Claim C4: the midnight-split merge is argument-order independent and
takes every field except end_time from the earlier-dated record, and
end_time from the later-dated one, whenever the two date strings parse to
different calendar days. -/
theorem claim_C4 (A B : AFestEvent) (a b : Nat)
    (ha : parseDate A.date = some a) (hb : parseDate B.date = some b)
    (hab : a ≠ b) :
    merge_events A B = merge_events B A ∧
    ∃ r, merge_events A B = .ok r ∧
      r.title = (if a < b then A else B).title ∧
      r.date = (if a < b then A else B).date ∧
      r.start_time = (if a < b then A else B).start_time ∧
      r.desc = (if a < b then A else B).desc ∧
      r.location = (if a < b then A else B).location ∧
      r.track = (if a < b then A else B).track ∧
      r.attendify_id = (if a < b then A else B).attendify_id ∧
      r.afest_id = (if a < b then A else B).afest_id ∧
      r.end_time = (if a < b then B else A).end_time := by
  have hAB := merge_events_eq_ok A B a b ha hb hab
  have hBA := merge_events_eq_ok B A b a hb ha (Ne.symm hab)
  rcases Nat.lt_or_ge a b with h | h
  · have hba : ¬ b < a := Nat.not_lt.mpr (Nat.le_of_lt h)
    rw [if_pos h] at hAB
    rw [if_neg hba] at hBA
    refine ⟨hAB.trans hBA.symm, mkMerged A B, hAB, ?_⟩
    simp [if_pos h, mkMerged]
  · have h2 : b < a := Nat.lt_of_le_of_ne h (fun hh => hab hh.symm)
    have hna : ¬ a < b := Nat.not_lt.mpr (Nat.le_of_lt h2)
    rw [if_neg hna] at hAB
    rw [if_pos h2] at hBA
    refine ⟨hAB.trans hBA.symm, mkMerged B A, hAB, ?_⟩
    simp [if_neg hna, mkMerged]

/-- Claim C4 witness: merging the two halves of the concrete August 5/6
split event is order independent and spans 22:00 of day one to 01:00 of
day two. -/
theorem claim_C4_witness :
    merge_events evMergeA evMergeB = merge_events evMergeB evMergeA ∧
    ∃ r, merge_events evMergeA evMergeB = .ok r ∧
      r.title = (if rataDie 2016 8 5 < rataDie 2016 8 6 then evMergeA else evMergeB).title ∧
      r.date = (if rataDie 2016 8 5 < rataDie 2016 8 6 then evMergeA else evMergeB).date ∧
      r.start_time = (if rataDie 2016 8 5 < rataDie 2016 8 6 then evMergeA else evMergeB).start_time ∧
      r.desc = (if rataDie 2016 8 5 < rataDie 2016 8 6 then evMergeA else evMergeB).desc ∧
      r.location = (if rataDie 2016 8 5 < rataDie 2016 8 6 then evMergeA else evMergeB).location ∧
      r.track = (if rataDie 2016 8 5 < rataDie 2016 8 6 then evMergeA else evMergeB).track ∧
      r.attendify_id = (if rataDie 2016 8 5 < rataDie 2016 8 6 then evMergeA else evMergeB).attendify_id ∧
      r.afest_id = (if rataDie 2016 8 5 < rataDie 2016 8 6 then evMergeA else evMergeB).afest_id ∧
      r.end_time = (if rataDie 2016 8 5 < rataDie 2016 8 6 then evMergeB else evMergeA).end_time :=
  claim_C4 evMergeA evMergeB (rataDie 2016 8 5) (rataDie 2016 8 6) rfl rfl (by decide)

/-- Claim C10: reunification never verifies that a size-two group is a true
midnight split.  Whenever the two date strings parse to different calendar
days, merge_events succeeds unconditionally, with no adjacency check, no
end-of-day check on the earlier record, and no midnight-start check on the
later record; the result spans from the earlier date to the later end
time. -/
theorem claim_C10 (e1 e2 : AFestEvent) (a b : Nat)
    (h1 : parseDate e1.date = some a) (h2 : parseDate e2.date = some b)
    (hab : a ≠ b) :
    ∃ r, merge_events e1 e2 = .ok r ∧
      r.date = (if a < b then e1 else e2).date ∧
      r.start_time = (if a < b then e1 else e2).start_time ∧
      r.end_time = (if a < b then e2 else e1).end_time := by
  have h := merge_events_eq_ok e1 e2 a b h1 h2 hab
  rcases Nat.lt_or_ge a b with hlt | hge
  · rw [if_pos hlt] at h
    exact ⟨mkMerged e1 e2, h, by simp [if_pos hlt, mkMerged]⟩
  · have hna : ¬ a < b := Nat.not_lt.mpr hge
    rw [if_neg hna] at h
    exact ⟨mkMerged e2 e1, h, by simp [if_neg hna, mkMerged]⟩

/-- Claim C10 witness: two records three calendar days apart, neither ending
at 23:59 nor starting at 00:00, are still merged into one record spanning
that whole range. -/
theorem claim_C10_witness :
    ∃ r, merge_events evMergeA evFarApart = .ok r ∧
      r.date = (if rataDie 2016 8 5 < rataDie 2016 8 8 then evMergeA else evFarApart).date ∧
      r.start_time = (if rataDie 2016 8 5 < rataDie 2016 8 8 then evMergeA else evFarApart).start_time ∧
      r.end_time = (if rataDie 2016 8 5 < rataDie 2016 8 8 then evFarApart else evMergeA).end_time :=
  claim_C10 evMergeA evFarApart (rataDie 2016 8 5) (rataDie 2016 8 8) rfl rfl (by decide)

/-! Helper lemmas about merge_split_events. -/

/-- A singleton input forms one singleton group and passes through. -/
theorem merge_split_single (e : AFestEvent) : merge_split_events [e] = .ok [e] := rfl

/-- Two records sharing one key form a single group of two, which is handed
to merge_events. -/
theorem merge_split_pair (e1 e2 : AFestEvent) (h : e1.afest_id = e2.afest_id) :
    merge_split_events [e1, e2] = (merge_events e1 e2).map (fun m => [m]) := by
  have hg : [e1, e2].foldl groupInsert [] = [(e1.afest_id, [e1, e2])] := by
    simp [List.foldl, groupInsert, ← h]
  unfold merge_split_events
  rw [hg]
  cases hm : merge_events e1 e2 <;>
    simp [processGroups, processGroup, hm, Except.map]

/-- Three records sharing one key form a single group of three, which is
fatal. -/
theorem merge_split_triple (e1 e2 e3 : AFestEvent)
    (h12 : e1.afest_id = e2.afest_id) (h13 : e1.afest_id = e3.afest_id) :
    merge_split_events [e1, e2, e3] = .error (.excessiveIdUse 3 e1.afest_id) := by
  have hg : [e1, e2, e3].foldl groupInsert [] = [(e1.afest_id, [e1, e2, e3])] := by
    simp [List.foldl, groupInsert, ← h12, ← h13]
  unfold merge_split_events
  rw [hg]
  rfl

/-- groupInsert never creates an empty group. -/
theorem mem_groupInsert_nonempty (acc : List (Option String × List AFestEvent))
    (e : AFestEvent) (h : ∀ kv ∈ acc, kv.2 ≠ []) :
    ∀ kv ∈ groupInsert acc e, kv.2 ≠ [] := by
  intro kv hkv
  unfold groupInsert at hkv
  split at hkv
  · obtain ⟨kv0, h0, hmap⟩ := List.mem_map.mp hkv
    by_cases hc : kv0.1 = e.afest_id
    · rw [if_pos hc] at hmap
      rw [← hmap]
      simp
    · rw [if_neg hc] at hmap
      rw [← hmap]
      exact h kv0 h0
  · rcases List.mem_append.mp hkv with h1 | h1
    · exact h kv h1
    · simp at h1
      rw [h1]
      simp

/-- No group built by the grouping loop is empty. -/
theorem foldl_groupInsert_nonempty :
    ∀ (es : List AFestEvent) (acc : List (Option String × List AFestEvent)),
    (∀ kv ∈ acc, kv.2 ≠ []) → ∀ kv ∈ es.foldl groupInsert acc, kv.2 ≠ [] := by
  intro es
  induction es with
  | nil => intro acc h; simpa using h
  | cons e es ih =>
    intro acc h
    exact ih (groupInsert acc e) (mem_groupInsert_nonempty acc e h)

/-- If every group has a distinct new key, the grouping loop yields singleton
groups in input order. -/
theorem foldl_groupInsert_distinct :
    ∀ (es : List AFestEvent) (acc : List (Option String × List AFestEvent)),
    (∀ e ∈ es, ∀ kv ∈ acc, kv.1 ≠ e.afest_id) →
    es.Pairwise (fun a b => a.afest_id ≠ b.afest_id) →
    es.foldl groupInsert acc = acc ++ es.map (fun e => (e.afest_id, [e])) := by
  intro es
  induction es with
  | nil => intro acc _ _; simp
  | cons e es ih =>
    intro acc hacc hpw
    have hcond : acc.any (fun kv => kv.1 = e.afest_id) = false := by
      simp only [List.any_eq_false, decide_eq_true_eq]
      intro kv hkv
      exact hacc e (by simp) kv hkv
    have hstep : groupInsert acc e = acc ++ [(e.afest_id, [e])] := by
      unfold groupInsert
      rw [hcond]
      simp
    rw [List.foldl_cons, hstep,
      ih (acc ++ [(e.afest_id, [e])]) ?_ (List.Pairwise.of_cons hpw)]
    · simp
    · intro f hf kv hkv
      rcases List.mem_append.mp hkv with h1 | h1
      · exact hacc f (by simp [hf]) kv h1
      · simp at h1
        rw [h1]
        exact List.rel_of_pairwise_cons hpw hf

/-- Processing a list of singleton groups returns the records in order. -/
theorem processGroups_map_singleton : ∀ es : List AFestEvent,
    processGroups (es.map (fun e => (e.afest_id, [e]))) = .ok es := by
  intro es
  induction es with
  | nil => rfl
  | cons e es ih => simp [processGroups, processGroup, ih]

/-- If some group has three or more members, and every two-member group
merges cleanly, the result loop aborts with the excessive-identifier-use
error carrying a genuinely offending identifier together with its group
size. -/
theorem processGroups_err :
    ∀ gs : List (Option String × List AFestEvent),
    (∀ kv ∈ gs, kv.2 ≠ []) →
    (∀ kv ∈ gs, kv.2.length = 2 → isOkB (processGroup kv) = true) →
    (∃ kv ∈ gs, 3 ≤ kv.2.length) →
    ∃ id n, processGroups gs = .error (.excessiveIdUse n id) ∧
      ∃ kv ∈ gs, kv.1 = id ∧ kv.2.length = n ∧ 3 ≤ n := by
  intro gs
  induction gs with
  | nil => intro _ _ hex; simp at hex
  | cons g rest ih =>
    intro hne h2 hex
    obtain ⟨id, l⟩ := g
    match l with
    | [] => exact absurd rfl (hne (id, []) (by simp))
    | [e] =>
      have hex2 : ∃ kv ∈ rest, 3 ≤ kv.2.length := by
        rcases hex with ⟨kv, hkv, h3⟩
        rcases List.mem_cons.mp hkv with hh | hmem
        · rw [hh] at h3; simp at h3
        · exact ⟨kv, hmem, h3⟩
      obtain ⟨i2, n, hpg, kv, hkvmem, hrest⟩ :=
        ih (fun kv h => hne kv (by simp [h])) (fun kv h => h2 kv (by simp [h])) hex2
      refine ⟨i2, n, ?_, kv, by simp [hkvmem], hrest⟩
      simp [processGroups, processGroup, hpg]
    | [e1, e2] =>
      have hok := h2 (id, [e1, e2]) (by simp) (by simp)
      have hex2 : ∃ kv ∈ rest, 3 ≤ kv.2.length := by
        rcases hex with ⟨kv, hkv, h3⟩
        rcases List.mem_cons.mp hkv with hh | hmem
        · rw [hh] at h3; simp at h3
        · exact ⟨kv, hmem, h3⟩
      obtain ⟨i2, n, hpg, kv, hkvmem, hrest⟩ :=
        ih (fun kv h => hne kv (by simp [h])) (fun kv h => h2 kv (by simp [h])) hex2
      refine ⟨i2, n, ?_, kv, by simp [hkvmem], hrest⟩
      cases hm : processGroup (id, [e1, e2]) with
      | error err => rw [hm] at hok; simp [isOkB] at hok
      | ok xs => simp [processGroups, hm, hpg]
    | e1 :: e2 :: e3 :: tl =>
      refine ⟨id, (e1 :: e2 :: e3 :: tl).length, ?_,
        (id, e1 :: e2 :: e3 :: tl), by simp, rfl, rfl, by simp⟩
      simp [processGroups, processGroup]

/-- Claim C8: excessive identifier reuse is fatal.  Whenever some group of
the reunification grouping has three or more records (and the two-record
groups merge cleanly, so the run reaches a fatal group), merge_split_events
aborts with the excessive-identifier-use error reporting an offending
identifier and its group size; size-one groups pass through unchanged, and
size-two groups are handed to merge_events. -/
theorem claim_C8 :
    (∀ events : List AFestEvent,
      (∀ kv ∈ events.foldl groupInsert [], kv.2.length = 2 →
          isOkB (processGroup kv) = true) →
      (∃ kv ∈ events.foldl groupInsert [], 3 ≤ kv.2.length) →
      ∃ id n, merge_split_events events = .error (.excessiveIdUse n id) ∧
        ∃ kv ∈ events.foldl groupInsert [], kv.1 = id ∧ kv.2.length = n ∧ 3 ≤ n) ∧
    (∀ events : List AFestEvent,
      events.Pairwise (fun a b => a.afest_id ≠ b.afest_id) →
      merge_split_events events = .ok events) ∧
    (∀ e1 e2 : AFestEvent, e1.afest_id = e2.afest_id →
      merge_split_events [e1, e2] = (merge_events e1 e2).map (fun m => [m])) := by
  refine ⟨?_, ?_, merge_split_pair⟩
  · intro events h2 hex
    exact processGroups_err (events.foldl groupInsert [])
      (foldl_groupInsert_nonempty events [] (by simp)) h2 hex
  · intro events hpw
    unfold merge_split_events
    rw [foldl_groupInsert_distinct events [] (by simp) hpw]
    simpa using processGroups_map_singleton events

/-- Claim C8 witness: three concrete records sharing the identifier 9 abort
the run with the excessive-identifier-use error, and two records sharing a
key are merged. -/
theorem claim_C8_witness :
    (∃ id n, merge_split_events [evMergeA, evMergeB, evFarApart] =
        .error (.excessiveIdUse n id) ∧
      ∃ kv ∈ [evMergeA, evMergeB, evFarApart].foldl groupInsert [],
        kv.1 = id ∧ kv.2.length = n ∧ 3 ≤ n) ∧
    merge_split_events [evMergeA, evMergeB] =
      (merge_events evMergeA evMergeB).map (fun m => [m]) :=
  ⟨claim_C8.1 [evMergeA, evMergeB, evFarApart] (by decide) (by decide),
   claim_C8.2.2 evMergeA evMergeB rfl⟩

/-- Claim C5 counterexample: the claim says records without a source_id are
excluded from the reunification grouping and never reach the group-size
checks, but three concrete unmatched records are grouped together under the
absent key and abort the run, instead of passing through. -/
theorem claim_C5_counterexample :
    merge_split_events [evFirstHalf, evSecondHalf, evUnmatched3] =
      .error (.excessiveIdUse 3 none) ∧
    merge_split_events [evFirstHalf, evSecondHalf, evUnmatched3] ≠
      .ok [evFirstHalf, evSecondHalf, evUnmatched3] := by
  constructor
  · rfl
  · intro h
    rw [show merge_split_events [evFirstHalf, evSecondHalf, evUnmatched3] =
        .error (.excessiveIdUse 3 none) from rfl] at h
    exact Except.noConfusion h

/-- Claim C5 as amended: reunification does not exclude records lacking a
source_id; they are grouped together under the absent identifier and
participate in merging and in the group-size checks like any other group: a
single unmatched record passes through, two unmatched records are handed to
merge_events, and three unmatched records abort the run with the
excessive-identifier-use error naming the absent identifier. -/
theorem claim_C5_amended (e1 e2 e3 : AFestEvent)
    (h1 : e1.afest_id = none) (h2 : e2.afest_id = none) (h3 : e3.afest_id = none) :
    merge_split_events [e1] = .ok [e1] ∧
    merge_split_events [e1, e2] = (merge_events e1 e2).map (fun m => [m]) ∧
    merge_split_events [e1, e2, e3] = .error (.excessiveIdUse 3 none) := by
  refine ⟨merge_split_single e1, merge_split_pair e1 e2 (by rw [h1, h2]), ?_⟩
  have ht := merge_split_triple e1 e2 e3 (by rw [h1, h2]) (by rw [h1, h3])
  rwa [h1] at ht

/-- Claim C5 witness: the amended behavior at three concrete unmatched
records. -/
theorem claim_C5_witness :
    merge_split_events [evFirstHalf] = .ok [evFirstHalf] ∧
    merge_split_events [evFirstHalf, evSecondHalf] =
      (merge_events evFirstHalf evSecondHalf).map (fun m => [m]) ∧
    merge_split_events [evFirstHalf, evSecondHalf, evUnmatched3] =
      .error (.excessiveIdUse 3 none) :=
  claim_C5_amended evFirstHalf evSecondHalf evUnmatched3 rfl rfl rfl

/-- Claim C6 counterexample: the substitution table does not contain the
soft hyphen; it passes through applySubs unchanged and stays non-ASCII.
The hyphen-like character the table does map is the non-breaking hyphen. -/
theorem claim_C6_counterexample :
    applySubs "­" = "­" ∧
    ((applySubs "­").data.all (fun c => c.toNat ≤ 127)) = false ∧
    applySubs "‑" = "-" := by decide

/-- Claim C6 as amended (soft hyphen corrected to non-breaking hyphen):
source-feed description normalization applies the fixed ordered substitution
table (curly quotes, em and en dashes, no-break space, ellipsis, trademark
sign, non-breaking hyphen, vertical tab, the Romanian s-with-comma, each
mapped to plain ASCII) at ingestion, and the only equality comparison of
descriptions, inside the differ, is taken after NFC normalization (modeled
by the abstract parameter nfc) of both sides. -/
theorem claim_C6_amended :
    (∀ row : AfestRow,
      (load_from_afest row).desc = applySubs (pyStrip row.description)) ∧
    (∀ (nfc : String → String) (l r : AFestEvent),
      (changesBetween nfc l r).filter (fun c => c.1 = "desc") =
        if nfc l.desc ≠ nfc r.desc then [("desc", nfc l.desc, nfc r.desc)]
        else []) ∧
    applySubs "’—“”–‑™ș‘… \x0b"
      = "'-\"\"--(TM)s'...  " := by
  refine ⟨fun row => rfl, ?_, by decide⟩
  intro nfc l r
  simp only [changesBetween, List.filter_append, apply_ite (List.filter _),
    List.filter_cons, List.filter_nil]
  simp

/-- Claim C7: in the backfill workflow, for an unmatched distribution record
with no exact match among the source records, the title-only fallback
issues a write of the discovered identifier and bumps the title counter
exactly when one single source record shares the title; with zero or
several title-sharers nothing is written, no counter changes, and no error
is raised. -/
theorem claim_C7 (afs : List AFestEvent) (at_event : AFestEvent)
    (hid : at_event.afest_id = none)
    (hnoexact : findExact at_event afs = some none) :
    ((afs.filter (fun af => at_event.title = af.title)).length = 1 →
      ∃ af ∈ afs, at_event.title = af.title ∧
        backfillStep afs at_event =
          some (.titleWrite at_event.attendify_id af.afest_id) ∧
        backfillRun afs [at_event] ⟨[], 0, 0⟩ =
          some ⟨[(at_event.attendify_id, af.afest_id)], 0, 1⟩) ∧
    ((afs.filter (fun af => at_event.title = af.title)).length ≠ 1 →
      backfillStep afs at_event = some .noWrite ∧
      backfillRun afs [at_event] ⟨[], 0, 0⟩ = some ⟨[], 0, 0⟩) := by
  constructor
  · intro hlen
    obtain ⟨af, haf⟩ := List.length_eq_one.mp hlen
    have hone : af ∈ afs.filter (fun af => at_event.title = af.title) := by
      rw [haf]; simp
    have hmem : af ∈ afs := (List.mem_filter.mp hone).1
    have htitle : at_event.title = af.title :=
      of_decide_eq_true (List.mem_filter.mp hone).2
    have hstep : backfillStep afs at_event =
        some (.titleWrite at_event.attendify_id af.afest_id) := by
      simp [backfillStep, hid, pyTruthy, hnoexact, haf]
    exact ⟨af, hmem, htitle, hstep, by simp [backfillRun, hstep, applyStep]⟩
  · intro hlen
    have hstep : backfillStep afs at_event = some .noWrite := by
      rcases hfl : afs.filter (fun af => at_event.title = af.title) with
        _ | ⟨a, _ | ⟨b, t⟩⟩
      · simp [backfillStep, hid, pyTruthy, hnoexact, hfl]
      · exact absurd (by rw [hfl]; rfl) hlen
      · simp [backfillStep, hid, pyTruthy, hnoexact, hfl]
    exact ⟨hstep, by simp [backfillRun, hstep, applyStep]⟩

/-- Claim C7 witness: one concrete source record sharing the title (and
failing the exact match on location) receives the fallback write with the
title counter bumped; with the title-sharer duplicated the fallback is
silently discarded. -/
theorem claim_C7_witness :
    (∃ af ∈ [afTitleOnly], atTitleOnly.title = af.title ∧
      backfillStep [afTitleOnly] atTitleOnly =
        some (.titleWrite atTitleOnly.attendify_id af.afest_id) ∧
      backfillRun [afTitleOnly] [atTitleOnly] ⟨[], 0, 0⟩ =
        some ⟨[(atTitleOnly.attendify_id, af.afest_id)], 0, 1⟩) ∧
    (backfillStep [afTitleOnly, afTitleOnly] atTitleOnly = some .noWrite ∧
      backfillRun [afTitleOnly, afTitleOnly] [atTitleOnly] ⟨[], 0, 0⟩ =
        some ⟨[], 0, 0⟩) :=
  ⟨(claim_C7 [afTitleOnly] atTitleOnly rfl rfl).1 (by decide),
   (claim_C7 [afTitleOnly, afTitleOnly] atTitleOnly rfl rfl).2 (by decide)⟩

/-- Claim C9 at the failing input: on a description that ends with the tag,
ingestion extracts the identifier and strips the tag as the claim states;
but on a markup-stripped description ending with a newline right after the
tag, which has no trailing tag, the regex dollar anchor still matches before
the trailing newline, so ingestion sets source_id anyway and the tag-length
trim from the absolute end corrupts the stored description. -/
theorem claim_C9_eval :
    ((load_from_attendify rowTagGood).afest_id = some "7" ∧
      (load_from_attendify rowTagGood).desc = "...fun!") ∧
    ((load_from_attendify rowTagNewline).afest_id = some "7" ∧
      (load_from_attendify rowTagNewline).desc = "x [") := by decide

/-! Infrastructure for the differ claim. -/

/-- The character-list comparison is irreflexive. -/
theorem charListLt_irrefl : ∀ cs : List Char, charListLt cs cs = false := by
  intro cs
  induction cs with
  | nil => rfl
  | cons c cs ih => simp [charListLt, lt_irrefl, ih]

/-- Character lists that compare less-than in neither direction are equal. -/
theorem charListLt_eq_of_not_lt :
    ∀ {xs ys : List Char}, charListLt xs ys = false → charListLt ys xs = false →
      xs = ys := by
  intro xs
  induction xs with
  | nil =>
    intro ys h1 _
    cases ys with
    | nil => rfl
    | cons b bs => simp [charListLt] at h1
  | cons a as ih =>
    intro ys h1 h2
    cases ys with
    | nil => simp [charListLt] at h2
    | cons b bs =>
      rcases lt_trichotomy a b with hab | hab | hab
      · rw [charListLt, if_pos hab] at h1
        exact absurd h1 (by simp)
      · subst hab
        rw [charListLt, if_neg (lt_irrefl a), if_neg (lt_irrefl a)] at h1 h2
        rw [ih h1 h2]
      · rw [charListLt, if_pos hab] at h2
        exact absurd h2 (by simp)

/-- The Python 2 key comparison is irreflexive. -/
theorem keyLt_irrefl (k : Option String) : keyLt k k = false := by
  cases k with
  | none => rfl
  | some a => simp [keyLt, charListLt_irrefl]

/-- Keys that compare less-than in neither direction are equal. -/
theorem keyLt_eq_of_not_lt {x y : Option String}
    (hxy : keyLt x y = false) (hyx : keyLt y x = false) : x = y := by
  cases x with
  | none =>
    cases y with
    | none => rfl
    | some b => simp [keyLt] at hxy
  | some a =>
    cases y with
    | none => simp [keyLt] at hyx
    | some b =>
      rw [keyLt] at hxy hyx
      have hdata : a.data = b.data := charListLt_eq_of_not_lt hxy hyx
      cases a
      cases b
      simp only at hdata
      rw [hdata]

/-- A record differs from itself in no field. -/
theorem changesBetween_self (nfc : String → String) (e : AFestEvent) :
    changesBetween nfc e e = [] := by
  simp [changesBetween]

/-- Unfolding equation of the differ: empty left side. -/
theorem diffEvents_nil_left (nfc : String → String) (rs : List AFestEvent) :
    diffEvents nfc [] rs = { added := rs, deleted := [], changed := [], matched := [] } := by
  rw [diffEvents]

/-- Unfolding equation of the differ: empty right side. -/
theorem diffEvents_nil_right (nfc : String → String) (l : AFestEvent)
    (ls : List AFestEvent) :
    diffEvents nfc (l :: ls) [] =
      { added := [], deleted := l :: ls, changed := [], matched := [] } := by
  rw [diffEvents]

/-- Unfolding equation of the differ: smaller left key, the left head is
deleted. -/
theorem diffEvents_lt (nfc : String → String) (l : AFestEvent) (ls : List AFestEvent)
    (r : AFestEvent) (rs : List AFestEvent)
    (h : keyLt l.afest_id r.afest_id = true) :
    diffEvents nfc (l :: ls) (r :: rs) =
      { diffEvents nfc ls (r :: rs) with
        deleted := l :: (diffEvents nfc ls (r :: rs)).deleted } := by
  rw [diffEvents]
  simp [h]

/-- Unfolding equation of the differ: smaller right key, the right head is
added. -/
theorem diffEvents_gt (nfc : String → String) (l : AFestEvent) (ls : List AFestEvent)
    (r : AFestEvent) (rs : List AFestEvent)
    (h1 : keyLt l.afest_id r.afest_id = false)
    (h2 : keyLt r.afest_id l.afest_id = true) :
    diffEvents nfc (l :: ls) (r :: rs) =
      { diffEvents nfc (l :: ls) rs with
        added := r :: (diffEvents nfc (l :: ls) rs).added } := by
  rw [diffEvents]
  simp [h1, h2]

/-- Unfolding equation of the differ: equal keys and an empty change set,
the pair is matched. -/
theorem diffEvents_eq_matched (nfc : String → String) (l : AFestEvent)
    (ls : List AFestEvent) (r : AFestEvent) (rs : List AFestEvent)
    (h1 : keyLt l.afest_id r.afest_id = false)
    (h2 : keyLt r.afest_id l.afest_id = false)
    (hc : changesBetween nfc l r = []) :
    diffEvents nfc (l :: ls) (r :: rs) =
      { diffEvents nfc ls rs with
        matched := l :: (diffEvents nfc ls rs).matched } := by
  rw [diffEvents]
  simp [h1, h2, hc]

/-- Unfolding equation of the differ: equal keys and a nonempty change set,
the pair is filed as changed under the left key. -/
theorem diffEvents_eq_changed (nfc : String → String) (l : AFestEvent)
    (ls : List AFestEvent) (r : AFestEvent) (rs : List AFestEvent)
    (h1 : keyLt l.afest_id r.afest_id = false)
    (h2 : keyLt r.afest_id l.afest_id = false)
    (hc : changesBetween nfc l r ≠ []) :
    diffEvents nfc (l :: ls) (r :: rs) =
      { diffEvents nfc ls rs with
        changed := (l.afest_id, changesBetween nfc l r) ::
          (diffEvents nfc ls rs).changed } := by
  rw [diffEvents]
  simp [h1, h2, hc]

/-- Every deleted record comes from the left input. -/
theorem diff_deleted_sub (nfc : String → String) :
    ∀ ls rs : List AFestEvent, ∀ e ∈ (diffEvents nfc ls rs).deleted, e ∈ ls := by
  intro ls rs
  induction ls, rs using diffEvents.induct nfc with
  | case1 rs => simp [diffEvents_nil_left]
  | case2 l ls => simp [diffEvents_nil_right]
  | case3 l ls r rs h ih =>
    intro e he
    rw [diffEvents_lt nfc l ls r rs h] at he
    rcases List.mem_cons.mp he with hh | hm
    · rw [hh]; exact List.mem_cons_self l ls
    · exact List.mem_cons_of_mem l (ih e hm)
  | case4 l ls r rs h1 h2 ih =>
    intro e he
    rw [diffEvents_gt nfc l ls r rs (eq_false_of_ne_true h1) h2] at he
    exact ih e he
  | case5 l ls r rs h1 h2 cs hc ih =>
    intro e he
    have hc2 : changesBetween nfc l r = [] := hc
    rw [diffEvents_eq_matched nfc l ls r rs (eq_false_of_ne_true h1)
      (eq_false_of_ne_true h2) hc2] at he
    exact List.mem_cons_of_mem l (ih e he)
  | case6 l ls r rs h1 h2 cs hc ih =>
    intro e he
    have hc2 : changesBetween nfc l r ≠ [] := hc
    rw [diffEvents_eq_changed nfc l ls r rs (eq_false_of_ne_true h1)
      (eq_false_of_ne_true h2) hc2] at he
    exact List.mem_cons_of_mem l (ih e he)

/-- Every matched record comes from the left input and its key occurs on the
right. -/
theorem diff_matched_sub (nfc : String → String) :
    ∀ ls rs : List AFestEvent, ∀ e ∈ (diffEvents nfc ls rs).matched,
      e ∈ ls ∧ e.afest_id ∈ rs.map (fun x => x.afest_id) := by
  intro ls rs
  induction ls, rs using diffEvents.induct nfc with
  | case1 rs => simp [diffEvents_nil_left]
  | case2 l ls => simp [diffEvents_nil_right]
  | case3 l ls r rs h ih =>
    intro e he
    rw [diffEvents_lt nfc l ls r rs h] at he
    obtain ⟨hl, hk⟩ := ih e he
    exact ⟨List.mem_cons_of_mem l hl, hk⟩
  | case4 l ls r rs h1 h2 ih =>
    intro e he
    rw [diffEvents_gt nfc l ls r rs (eq_false_of_ne_true h1) h2] at he
    obtain ⟨hl, hk⟩ := ih e he
    refine ⟨hl, ?_⟩
    simp only [List.map_cons, List.mem_cons]
    exact Or.inr hk
  | case5 l ls r rs h1 h2 cs hc ih =>
    intro e he
    have hc2 : changesBetween nfc l r = [] := hc
    have hkey : l.afest_id = r.afest_id :=
      keyLt_eq_of_not_lt (eq_false_of_ne_true h1) (eq_false_of_ne_true h2)
    rw [diffEvents_eq_matched nfc l ls r rs (eq_false_of_ne_true h1)
      (eq_false_of_ne_true h2) hc2] at he
    rcases List.mem_cons.mp he with hh | hm
    · rw [hh]
      exact ⟨List.mem_cons_self l ls, by simp [hkey]⟩
    · obtain ⟨hl, hk⟩ := ih e hm
      refine ⟨List.mem_cons_of_mem l hl, ?_⟩
      simp only [List.map_cons, List.mem_cons]
      exact Or.inr hk
  | case6 l ls r rs h1 h2 cs hc ih =>
    intro e he
    have hc2 : changesBetween nfc l r ≠ [] := hc
    rw [diffEvents_eq_changed nfc l ls r rs (eq_false_of_ne_true h1)
      (eq_false_of_ne_true h2) hc2] at he
    obtain ⟨hl, hk⟩ := ih e he
    refine ⟨List.mem_cons_of_mem l hl, ?_⟩
    simp only [List.map_cons, List.mem_cons]
    exact Or.inr hk

/-- Every added record comes from the right input. -/
theorem diff_added_sub (nfc : String → String) :
    ∀ ls rs : List AFestEvent, ∀ e ∈ (diffEvents nfc ls rs).added, e ∈ rs := by
  intro ls rs
  induction ls, rs using diffEvents.induct nfc with
  | case1 rs => simp [diffEvents_nil_left]
  | case2 l ls => simp [diffEvents_nil_right]
  | case3 l ls r rs h ih =>
    intro e he
    rw [diffEvents_lt nfc l ls r rs h] at he
    exact ih e he
  | case4 l ls r rs h1 h2 ih =>
    intro e he
    rw [diffEvents_gt nfc l ls r rs (eq_false_of_ne_true h1) h2] at he
    rcases List.mem_cons.mp he with hh | hm
    · rw [hh]; exact List.mem_cons_self r rs
    · exact List.mem_cons_of_mem r (ih e hm)
  | case5 l ls r rs h1 h2 cs hc ih =>
    intro e he
    have hc2 : changesBetween nfc l r = [] := hc
    rw [diffEvents_eq_matched nfc l ls r rs (eq_false_of_ne_true h1)
      (eq_false_of_ne_true h2) hc2] at he
    exact List.mem_cons_of_mem r (ih e he)
  | case6 l ls r rs h1 h2 cs hc ih =>
    intro e he
    have hc2 : changesBetween nfc l r ≠ [] := hc
    rw [diffEvents_eq_changed nfc l ls r rs (eq_false_of_ne_true h1)
      (eq_false_of_ne_true h2) hc2] at he
    exact List.mem_cons_of_mem r (ih e he)

/-- Every changed entry is keyed by a key occurring in both inputs. -/
theorem diff_changed_keys (nfc : String → String) :
    ∀ ls rs : List AFestEvent, ∀ k c, (k, c) ∈ (diffEvents nfc ls rs).changed →
      k ∈ ls.map (fun x => x.afest_id) ∧ k ∈ rs.map (fun x => x.afest_id) := by
  intro ls rs
  induction ls, rs using diffEvents.induct nfc with
  | case1 rs => simp [diffEvents_nil_left]
  | case2 l ls => simp [diffEvents_nil_right]
  | case3 l ls r rs h ih =>
    intro k c hkc
    rw [diffEvents_lt nfc l ls r rs h] at hkc
    obtain ⟨hl, hr⟩ := ih k c hkc
    refine ⟨?_, hr⟩
    simp only [List.map_cons, List.mem_cons]
    exact Or.inr hl
  | case4 l ls r rs h1 h2 ih =>
    intro k c hkc
    rw [diffEvents_gt nfc l ls r rs (eq_false_of_ne_true h1) h2] at hkc
    obtain ⟨hl, hr⟩ := ih k c hkc
    refine ⟨hl, ?_⟩
    simp only [List.map_cons, List.mem_cons]
    exact Or.inr hr
  | case5 l ls r rs h1 h2 cs hc ih =>
    intro k c hkc
    have hc2 : changesBetween nfc l r = [] := hc
    rw [diffEvents_eq_matched nfc l ls r rs (eq_false_of_ne_true h1)
      (eq_false_of_ne_true h2) hc2] at hkc
    obtain ⟨hl, hr⟩ := ih k c hkc
    constructor
    · simp only [List.map_cons, List.mem_cons]; exact Or.inr hl
    · simp only [List.map_cons, List.mem_cons]; exact Or.inr hr
  | case6 l ls r rs h1 h2 cs hc ih =>
    intro k c hkc
    have hc2 : changesBetween nfc l r ≠ [] := hc
    have hkey : l.afest_id = r.afest_id :=
      keyLt_eq_of_not_lt (eq_false_of_ne_true h1) (eq_false_of_ne_true h2)
    rw [diffEvents_eq_changed nfc l ls r rs (eq_false_of_ne_true h1)
      (eq_false_of_ne_true h2) hc2] at hkc
    rcases List.mem_cons.mp hkc with hh | hm
    · have hk : k = l.afest_id := congrArg Prod.fst hh
      constructor
      · rw [hk]; simp
      · rw [hk, hkey]; simp
    · obtain ⟨hl, hr⟩ := ih k c hm
      constructor
      · simp only [List.map_cons, List.mem_cons]; exact Or.inr hl
      · simp only [List.map_cons, List.mem_cons]; exact Or.inr hr

theorem exactlyOne_first {p q r : Prop} (hp : p) (hq : ¬q) (hr : ¬r) :
    ExactlyOne p q r :=
  ⟨Or.inl hp, fun h => hq h.2, fun h => hr h.2, fun h => hq h.1⟩

theorem exactlyOne_second {p q r : Prop} (hp : ¬p) (hq : q) (hr : ¬r) :
    ExactlyOne p q r :=
  ⟨Or.inr (Or.inl hq), fun h => hp h.1, fun h => hp h.1, fun h => hr h.2⟩

theorem exactlyOne_third {p q r : Prop} (hp : ¬p) (hq : ¬q) (hr : r) :
    ExactlyOne p q r :=
  ⟨Or.inr (Or.inr hr), fun h => hp h.1, fun h => hp h.1, fun h => hq h.1⟩

theorem exactlyOne_congr {p p2 q q2 r r2 : Prop} (hp : p ↔ p2) (hq : q ↔ q2)
    (hr : r ↔ r2) (h : ExactlyOne p q r) : ExactlyOne p2 q2 r2 := by
  rw [← hp, ← hq, ← hr]
  exact h

/-- Distinct keys under the Python 2 comparison. -/
theorem ne_of_keyLt {x y : Option String} (h : keyLt x y = true) : x ≠ y := by
  intro he
  rw [he, keyLt_irrefl] at h
  exact Bool.false_ne_true h

/-- In a strictly ascending list, the head key does not recur in the tail. -/
theorem key_not_mem_of_pairwise {l : AFestEvent} {ls : List AFestEvent}
    (hpw : (l :: ls).Pairwise (fun a b => keyLt a.afest_id b.afest_id = true)) :
    l.afest_id ∉ ls.map (fun x => x.afest_id) := by
  intro hmem
  obtain ⟨x, hx, hkx⟩ := List.mem_map.mp hmem
  have h := List.rel_of_pairwise_cons hpw hx
  rw [hkx, keyLt_irrefl] at h
  exact Bool.false_ne_true h

/-- Each input record accounts for exactly one bucket in the aggregate:
deleted, changed and matched counts add up to the left length, and added,
changed and matched counts add up to the right length. -/
theorem diff_counts (nfc : String → String) :
    ∀ ls rs : List AFestEvent,
    (diffEvents nfc ls rs).deleted.length + (diffEvents nfc ls rs).changed.length +
        (diffEvents nfc ls rs).matched.length = ls.length ∧
      (diffEvents nfc ls rs).added.length + (diffEvents nfc ls rs).changed.length +
        (diffEvents nfc ls rs).matched.length = rs.length := by
  intro ls rs
  induction ls, rs using diffEvents.induct nfc with
  | case1 rs => simp [diffEvents_nil_left]
  | case2 l ls => simp [diffEvents_nil_right]
  | case3 l ls r rs h ih =>
    rw [diffEvents_lt nfc l ls r rs h]
    simp only [List.length_cons] at ih ⊢
    omega
  | case4 l ls r rs h1 h2 ih =>
    rw [diffEvents_gt nfc l ls r rs (eq_false_of_ne_true h1) h2]
    simp only [List.length_cons] at ih ⊢
    omega
  | case5 l ls r rs h1 h2 cs hc ih =>
    have hc2 : changesBetween nfc l r = [] := hc
    rw [diffEvents_eq_matched nfc l ls r rs (eq_false_of_ne_true h1)
      (eq_false_of_ne_true h2) hc2]
    simp only [List.length_cons] at ih ⊢
    omega
  | case6 l ls r rs h1 h2 cs hc ih =>
    have hc2 : changesBetween nfc l r ≠ [] := hc
    rw [diffEvents_eq_changed nfc l ls r rs (eq_false_of_ne_true h1)
      (eq_false_of_ne_true h2) hc2]
    simp only [List.length_cons] at ih ⊢
    omega

/-- Left-side completeness: under strictly-ascending unique keys, every left
record lands in exactly one of deleted, changed (by its key), matched. -/
theorem diff_left_exclusive (nfc : String → String) :
    ∀ ls rs : List AFestEvent,
    ls.Pairwise (fun a b => keyLt a.afest_id b.afest_id = true) →
    ∀ e ∈ ls, ExactlyOne (e ∈ (diffEvents nfc ls rs).deleted)
      (∃ c, (e.afest_id, c) ∈ (diffEvents nfc ls rs).changed)
      (e ∈ (diffEvents nfc ls rs).matched) := by
  intro ls rs
  induction ls, rs using diffEvents.induct nfc with
  | case1 rs =>
    intro _ e he
    simp at he
  | case2 l ls =>
    intro _ e he
    rw [diffEvents_nil_right]
    exact exactlyOne_first he (by simp) (by simp)
  | case3 l ls r rs h ih =>
    intro hpw e he
    rw [diffEvents_lt nfc l ls r rs h]
    rcases List.mem_cons.mp he with hh | hm
    · subst hh
      refine exactlyOne_first (List.mem_cons_self e _) ?_ ?_
      · rintro ⟨c, hc⟩
        obtain ⟨hl, _⟩ := diff_changed_keys nfc ls (r :: rs) e.afest_id c hc
        exact key_not_mem_of_pairwise hpw hl
      · intro hm2
        obtain ⟨hl2, _⟩ := diff_matched_sub nfc ls (r :: rs) e hm2
        exact key_not_mem_of_pairwise hpw (List.mem_map_of_mem _ hl2)
    · have hne : e ≠ l := by
        intro he2
        have hk := List.rel_of_pairwise_cons hpw hm
        rw [he2] at hk
        exact Bool.false_ne_true (keyLt_irrefl l.afest_id ▸ hk)
      refine exactlyOne_congr ?_ Iff.rfl Iff.rfl
        (ih (List.Pairwise.of_cons hpw) e hm)
      constructor
      · exact List.mem_cons_of_mem l
      · intro hmem
        rcases List.mem_cons.mp hmem with hh | hd
        · exact absurd hh hne
        · exact hd
  | case4 l ls r rs h1 h2 ih =>
    intro hpw e he
    rw [diffEvents_gt nfc l ls r rs (eq_false_of_ne_true h1) h2]
    exact ih hpw e he
  | case5 l ls r rs h1 h2 cs hc ih =>
    intro hpw e he
    have hc2 : changesBetween nfc l r = [] := hc
    rw [diffEvents_eq_matched nfc l ls r rs (eq_false_of_ne_true h1)
      (eq_false_of_ne_true h2) hc2]
    rcases List.mem_cons.mp he with hh | hm
    · subst hh
      refine exactlyOne_third ?_ ?_ (List.mem_cons_self e _)
      · intro hd
        have hl := diff_deleted_sub nfc ls rs e hd
        exact key_not_mem_of_pairwise hpw (List.mem_map_of_mem _ hl)
      · rintro ⟨c, hcm⟩
        obtain ⟨hl, _⟩ := diff_changed_keys nfc ls rs e.afest_id c hcm
        exact key_not_mem_of_pairwise hpw hl
    · have hne : e ≠ l := by
        intro he2
        have hk := List.rel_of_pairwise_cons hpw hm
        rw [he2] at hk
        exact Bool.false_ne_true (keyLt_irrefl l.afest_id ▸ hk)
      refine exactlyOne_congr Iff.rfl Iff.rfl ?_
        (ih (List.Pairwise.of_cons hpw) e hm)
      constructor
      · exact List.mem_cons_of_mem l
      · intro hmem
        rcases List.mem_cons.mp hmem with hh | hd
        · exact absurd hh hne
        · exact hd
  | case6 l ls r rs h1 h2 cs hc ih =>
    intro hpw e he
    have hc2 : changesBetween nfc l r ≠ [] := hc
    rw [diffEvents_eq_changed nfc l ls r rs (eq_false_of_ne_true h1)
      (eq_false_of_ne_true h2) hc2]
    rcases List.mem_cons.mp he with hh | hm
    · subst hh
      refine exactlyOne_second ?_
        ⟨changesBetween nfc e r, List.mem_cons_self _ _⟩ ?_
      · intro hd
        have hl := diff_deleted_sub nfc ls rs e hd
        exact key_not_mem_of_pairwise hpw (List.mem_map_of_mem _ hl)
      · intro hm2
        obtain ⟨hl2, _⟩ := diff_matched_sub nfc ls rs e hm2
        exact key_not_mem_of_pairwise hpw (List.mem_map_of_mem _ hl2)
    · have hkne : e.afest_id ≠ l.afest_id := by
        intro he2
        have hk := List.rel_of_pairwise_cons hpw hm
        rw [he2] at hk
        exact Bool.false_ne_true (keyLt_irrefl l.afest_id ▸ hk)
      refine exactlyOne_congr Iff.rfl ?_ Iff.rfl
        (ih (List.Pairwise.of_cons hpw) e hm)
      constructor
      · rintro ⟨c, hcm⟩
        exact ⟨c, List.mem_cons_of_mem _ hcm⟩
      · rintro ⟨c, hcm⟩
        rcases List.mem_cons.mp hcm with hh | hd
        · exact absurd (congrArg Prod.fst hh) hkne
        · exact ⟨c, hd⟩

/-- Right-side completeness: under strictly-ascending unique keys, every
right record lands in exactly one of added, changed (by its key), matched
(witnessed by a matched record with the same key). -/
theorem diff_right_exclusive (nfc : String → String) :
    ∀ ls rs : List AFestEvent,
    rs.Pairwise (fun a b => keyLt a.afest_id b.afest_id = true) →
    ∀ e ∈ rs, ExactlyOne (e ∈ (diffEvents nfc ls rs).added)
      (∃ c, (e.afest_id, c) ∈ (diffEvents nfc ls rs).changed)
      (∃ m ∈ (diffEvents nfc ls rs).matched, m.afest_id = e.afest_id) := by
  intro ls rs
  induction ls, rs using diffEvents.induct nfc with
  | case1 rs =>
    intro _ e he
    rw [diffEvents_nil_left]
    exact exactlyOne_first he (by simp) (by simp)
  | case2 l ls =>
    intro _ e he
    simp at he
  | case3 l ls r rs h ih =>
    intro hpw e he
    rw [diffEvents_lt nfc l ls r rs h]
    exact ih hpw e he
  | case4 l ls r rs h1 h2 ih =>
    intro hpw e he
    rw [diffEvents_gt nfc l ls r rs (eq_false_of_ne_true h1) h2]
    rcases List.mem_cons.mp he with hh | hm
    · subst hh
      refine exactlyOne_first (List.mem_cons_self e _) ?_ ?_
      · rintro ⟨c, hcm⟩
        obtain ⟨_, hr⟩ := diff_changed_keys nfc (l :: ls) rs e.afest_id c hcm
        exact key_not_mem_of_pairwise hpw hr
      · rintro ⟨m, hmm, hmk⟩
        obtain ⟨_, hr⟩ := diff_matched_sub nfc (l :: ls) rs m hmm
        rw [hmk] at hr
        exact key_not_mem_of_pairwise hpw hr
    · have hne : e ≠ r := by
        intro he2
        have hk := List.rel_of_pairwise_cons hpw hm
        rw [he2] at hk
        exact Bool.false_ne_true (keyLt_irrefl r.afest_id ▸ hk)
      refine exactlyOne_congr ?_ Iff.rfl Iff.rfl
        (ih (List.Pairwise.of_cons hpw) e hm)
      constructor
      · exact List.mem_cons_of_mem r
      · intro hmem
        rcases List.mem_cons.mp hmem with hh | hd
        · exact absurd hh hne
        · exact hd
  | case5 l ls r rs h1 h2 cs hc ih =>
    intro hpw e he
    have hc2 : changesBetween nfc l r = [] := hc
    have hkey : l.afest_id = r.afest_id :=
      keyLt_eq_of_not_lt (eq_false_of_ne_true h1) (eq_false_of_ne_true h2)
    rw [diffEvents_eq_matched nfc l ls r rs (eq_false_of_ne_true h1)
      (eq_false_of_ne_true h2) hc2]
    rcases List.mem_cons.mp he with hh | hm
    · subst hh
      refine exactlyOne_third ?_ ?_ ⟨l, List.mem_cons_self l _, hkey⟩
      · intro ha
        have hr := diff_added_sub nfc ls rs e ha
        exact key_not_mem_of_pairwise hpw (List.mem_map_of_mem _ hr)
      · rintro ⟨c, hcm⟩
        obtain ⟨_, hr⟩ := diff_changed_keys nfc ls rs e.afest_id c hcm
        exact key_not_mem_of_pairwise hpw hr
    · have hkne : e.afest_id ≠ r.afest_id := by
        intro he2
        have hk := List.rel_of_pairwise_cons hpw hm
        rw [he2] at hk
        exact Bool.false_ne_true (keyLt_irrefl r.afest_id ▸ hk)
      refine exactlyOne_congr Iff.rfl Iff.rfl ?_
        (ih (List.Pairwise.of_cons hpw) e hm)
      constructor
      · rintro ⟨m, hmm, hmk⟩
        exact ⟨m, List.mem_cons_of_mem l hmm, hmk⟩
      · rintro ⟨m, hmm, hmk⟩
        rcases List.mem_cons.mp hmm with hh | hd
        · rw [hh] at hmk
          rw [hkey] at hmk
          exact absurd hmk.symm hkne
        · exact ⟨m, hd, hmk⟩
  | case6 l ls r rs h1 h2 cs hc ih =>
    intro hpw e he
    have hc2 : changesBetween nfc l r ≠ [] := hc
    have hkey : l.afest_id = r.afest_id :=
      keyLt_eq_of_not_lt (eq_false_of_ne_true h1) (eq_false_of_ne_true h2)
    rw [diffEvents_eq_changed nfc l ls r rs (eq_false_of_ne_true h1)
      (eq_false_of_ne_true h2) hc2]
    rcases List.mem_cons.mp he with hh | hm
    · subst hh
      refine exactlyOne_second ?_
        ⟨changesBetween nfc l e, by rw [hkey]; exact List.mem_cons_self _ _⟩ ?_
      · intro ha
        have hr := diff_added_sub nfc ls rs e ha
        exact key_not_mem_of_pairwise hpw (List.mem_map_of_mem _ hr)
      · rintro ⟨m, hmm, hmk⟩
        obtain ⟨_, hr⟩ := diff_matched_sub nfc ls rs m hmm
        rw [hmk] at hr
        exact key_not_mem_of_pairwise hpw hr
    · have hkne : e.afest_id ≠ r.afest_id := by
        intro he2
        have hk := List.rel_of_pairwise_cons hpw hm
        rw [he2] at hk
        exact Bool.false_ne_true (keyLt_irrefl r.afest_id ▸ hk)
      refine exactlyOne_congr Iff.rfl ?_ Iff.rfl
        (ih (List.Pairwise.of_cons hpw) e hm)
      constructor
      · rintro ⟨c, hcm⟩
        exact ⟨c, List.mem_cons_of_mem _ hcm⟩
      · rintro ⟨c, hcm⟩
        rcases List.mem_cons.mp hcm with hh | hd
        · have := congrArg Prod.fst hh
          simp only at this
          rw [hkey] at this
          exact absurd this hkne
        · exact ⟨c, hd⟩

/-- Diffing a sequence against itself yields every record matched and the
other buckets empty. -/
theorem diff_self (nfc : String → String) :
    ∀ l : List AFestEvent,
    diffEvents nfc l l =
      { added := [], deleted := [], changed := [], matched := l } := by
  intro l
  induction l with
  | nil => rw [diffEvents_nil_left]
  | cons e t ih =>
    rw [diffEvents_eq_matched nfc e t e t (keyLt_irrefl e.afest_id)
      (keyLt_irrefl e.afest_id) (changesBetween_self nfc e), ih]

/-- Claim C1: diff completeness.  The bucket sizes always account for each
input record once (deleted, changed and matched add up to the left length;
added, changed and matched to the right length); under the documented
precondition of strictly ascending unique keys, every left record lands in
exactly one of deleted, changed, matched and every right record in exactly
one of added, changed, matched, with an equal-key pair counted once; and
diffing two identical sequences yields every record matched with the other
buckets empty. -/
theorem claim_C1 :
    (∀ (nfc : String → String) (ls rs : List AFestEvent),
      (diffEvents nfc ls rs).deleted.length + (diffEvents nfc ls rs).changed.length +
          (diffEvents nfc ls rs).matched.length = ls.length ∧
        (diffEvents nfc ls rs).added.length + (diffEvents nfc ls rs).changed.length +
          (diffEvents nfc ls rs).matched.length = rs.length) ∧
    (∀ (nfc : String → String) (ls rs : List AFestEvent),
      ls.Pairwise (fun a b => keyLt a.afest_id b.afest_id = true) →
      rs.Pairwise (fun a b => keyLt a.afest_id b.afest_id = true) →
      (∀ e ∈ ls, ExactlyOne (e ∈ (diffEvents nfc ls rs).deleted)
        (∃ c, (e.afest_id, c) ∈ (diffEvents nfc ls rs).changed)
        (e ∈ (diffEvents nfc ls rs).matched)) ∧
      (∀ e ∈ rs, ExactlyOne (e ∈ (diffEvents nfc ls rs).added)
        (∃ c, (e.afest_id, c) ∈ (diffEvents nfc ls rs).changed)
        (∃ m ∈ (diffEvents nfc ls rs).matched, m.afest_id = e.afest_id))) ∧
    (∀ (nfc : String → String) (l : List AFestEvent),
      diffEvents nfc l l =
        { added := [], deleted := [], changed := [], matched := l }) := by
  refine ⟨diff_counts, ?_, diff_self⟩
  intro nfc ls rs hls hrs
  exact ⟨diff_left_exclusive nfc ls rs hls, diff_right_exclusive nfc ls rs hrs⟩

/-- Claim C1 witness: two concrete sorted lists sharing only the key 2; the
record with key 1 is classified exactly once (deleted), the record with key
3 exactly once (added), the counts add up, and the self diff matches
everything. -/
theorem claim_C1_witness :
    ((diffEvents id [evK1, evK2] [evK2, evK3]).deleted.length +
        (diffEvents id [evK1, evK2] [evK2, evK3]).changed.length +
        (diffEvents id [evK1, evK2] [evK2, evK3]).matched.length =
        [evK1, evK2].length ∧
      (diffEvents id [evK1, evK2] [evK2, evK3]).added.length +
        (diffEvents id [evK1, evK2] [evK2, evK3]).changed.length +
        (diffEvents id [evK1, evK2] [evK2, evK3]).matched.length =
        [evK2, evK3].length) ∧
    ExactlyOne (evK1 ∈ (diffEvents id [evK1, evK2] [evK2, evK3]).deleted)
      (∃ c, (evK1.afest_id, c) ∈ (diffEvents id [evK1, evK2] [evK2, evK3]).changed)
      (evK1 ∈ (diffEvents id [evK1, evK2] [evK2, evK3]).matched) ∧
    ExactlyOne (evK3 ∈ (diffEvents id [evK1, evK2] [evK2, evK3]).added)
      (∃ c, (evK3.afest_id, c) ∈ (diffEvents id [evK1, evK2] [evK2, evK3]).changed)
      (∃ m ∈ (diffEvents id [evK1, evK2] [evK2, evK3]).matched,
        m.afest_id = evK3.afest_id) ∧
    diffEvents id [evK1] [evK1] =
      { added := [], deleted := [], changed := [], matched := [evK1] } :=
  ⟨claim_C1.1 id [evK1, evK2] [evK2, evK3],
   (claim_C1.2.1 id [evK1, evK2] [evK2, evK3] (by decide) (by decide)).1
     evK1 (by decide),
   (claim_C1.2.1 id [evK1, evK2] [evK2, evK3] (by decide) (by decide)).2
     evK3 (by decide),
   claim_C1.2.2 id [evK1]⟩

end AFestSched
